import Mathlib

/-!
Verification of the jsonQ tree engine (`src/utils/jsonUtils.ts` /
`src/utils/treeUtils.ts`): a shallow embedding of the JSON value model,
the tree builder (`buildTreeNode`), the path-addressed mutators
(`updateTreeNode`, `toggleTreeNodeExpansion`, `expandAllTreeNodes`,
`collapseAllTreeNodes`), search (`searchTree`), filtering
(`filterTreeBySearch`) and reconstruction (`reconstructJsonFromTree`),
together with proofs of the specified properties.

JavaScript numbers are embedded as `Int` (the claims under study never
depend on numeric formatting of non-integral doubles); the host regular
expression engine is an external collaborator and is embedded as an
explicit compile function `String → Bool → Option (String → Bool)`
returning `none` exactly when the host `new RegExp` constructor would
throw on the pattern.
-/

/-- Decoded JSON value: the six-variant tagged union of the data model.
Objects are insertion-ordered key/value sequences, as produced by the
host decoder. -/
inductive JsonValue where
  | null
  | bool (b : Bool)
  | num (n : Int)
  | str (s : String)
  | arr (elems : List JsonValue)
  | obj (fields : List (String × JsonValue))

/-- A tree node's `key` field: a property name (string) or an array
index (number), mirroring the TypeScript `key: string | number`. -/
inductive NodeKey where
  | str (s : String)
  | num (n : Nat)
deriving DecidableEq

/-- JavaScript `key.toString()`. -/
def NodeKey.toString : NodeKey → String
  | .str s => s
  | .num n => ToString.toString n

/-- The `type` field of a tree node:
`'object' | 'array' | 'string' | 'number' | 'boolean' | 'null'`. -/
inductive JType where
  | object | array | string | number | boolean | null
deriving DecidableEq

/-- `getValueType` from `treeUtils.ts`: classification of a decoded
value, with the branches tested in the source's order (null, array,
object, string, number, boolean). -/
def getValueType : JsonValue → JType
  | .null => .null
  | .arr _ => .array
  | .obj _ => .object
  | .str _ => .string
  | .num _ => .number
  | .bool _ => .boolean

/-- The `TreeNode` interface: key, value, type, path, isExpanded and an
optional children list (`undefined` is `none`).  The optional `parent`
back-reference is omitted: it is cyclic and unused by every operation
under study. -/
inductive TreeNode where
  | mk (key : NodeKey) (value : JsonValue) (type : JType) (path : List String)
       (isExpanded : Bool) (children : Option (List TreeNode))

def TreeNode.key : TreeNode → NodeKey | .mk k _ _ _ _ _ => k
def TreeNode.value : TreeNode → JsonValue | .mk _ v _ _ _ _ => v
def TreeNode.type : TreeNode → JType | .mk _ _ ty _ _ _ => ty
def TreeNode.path : TreeNode → List String | .mk _ _ _ p _ _ => p
def TreeNode.isExpanded : TreeNode → Bool | .mk _ _ _ _ e _ => e
def TreeNode.children : TreeNode → Option (List TreeNode) | .mk _ _ _ _ _ c => c

mutual
/-- `buildTreeNode(data, path, key)` from `treeUtils.ts`: builds a node
with `isExpanded = path.length < 2` and recursively built children for
objects (insertion order) and arrays (index order); primitives get no
children. -/
def buildTreeNode (data : JsonValue) (path : List String) (key : NodeKey) : TreeNode :=
  TreeNode.mk key data (getValueType data) path (decide (path.length < 2))
    (match data with
     | .obj fields => some (buildObjChildren fields path)
     | .arr elems => some (buildArrChildren elems path 0)
     | _ => none)

/-- `Object.keys(obj).map(childKey => buildTreeNode(obj[childKey], [...path, childKey], childKey))`. -/
def buildObjChildren (fields : List (String × JsonValue)) (path : List String) : List TreeNode :=
  match fields with
  | [] => []
  | (k, v) :: rest => buildTreeNode v (path ++ [k]) (.str k) :: buildObjChildren rest path

/-- `arr.map((item, index) => buildTreeNode(item, [...path, index.toString()], index))`. -/
def buildArrChildren (elems : List JsonValue) (path : List String) (i : Nat) : List TreeNode :=
  match elems with
  | [] => []
  | x :: rest =>
      buildTreeNode x (path ++ [ToString.toString i]) (.num i) :: buildArrChildren rest path (i + 1)
end

/-- `updateTreeNode(tree, targetPath, newValue)` from `treeUtils.ts`:
empty path replaces `value` and recomputes `type` (children untouched);
otherwise the children whose stringified key equals the first segment
are updated recursively, siblings are kept; with no children the tree
is returned unchanged. -/
def updateTreeNode (tree : TreeNode) (targetPath : List String) (newValue : JsonValue) : TreeNode :=
  match targetPath with
  | [] =>
      (match tree with
       | .mk k _ _ pth e ch => .mk k newValue (getValueType newValue) pth e ch)
  | currentKey :: remainingPath =>
      (match tree with
       | .mk k v ty pth e (some cs) =>
           .mk k v ty pth e (some (cs.map (fun child =>
             if child.key.toString = currentKey then updateTreeNode child remainingPath newValue
             else child)))
       | .mk _ _ _ _ _ none => tree)

/-- `getNodePath(path)`: `path.join('.')`. -/
def getNodePath (path : List String) : String := String.intercalate "." path

mutual
/-- `expandAllTreeNodes(node)`: sets `isExpanded = true` on every node. -/
def expandAllTreeNodes : TreeNode → TreeNode
  | .mk k v ty pth _ ch => .mk k v ty pth true (expandAllOpt ch)

def expandAllOpt : Option (List TreeNode) → Option (List TreeNode)
  | none => none
  | some cs => some (expandAllList cs)

def expandAllList : List TreeNode → List TreeNode
  | [] => []
  | c :: rest => expandAllTreeNodes c :: expandAllList rest
end

mutual
/-- `collapseAllTreeNodes(node)`: sets `isExpanded = false` on every node. -/
def collapseAllTreeNodes : TreeNode → TreeNode
  | .mk k v ty pth _ ch => .mk k v ty pth false (collapseAllOpt ch)

def collapseAllOpt : Option (List TreeNode) → Option (List TreeNode)
  | none => none
  | some cs => some (collapseAllList cs)

def collapseAllList : List TreeNode → List TreeNode
  | [] => []
  | c :: rest => collapseAllTreeNodes c :: collapseAllList rest
end

/-- `toggleTreeNodeExpansion(node, targetPath)`: empty path flips
`isExpanded`; otherwise recurses into children whose stringified key
matches the first segment, keeping the rest; no children means no-op. -/
def toggleTreeNodeExpansion (node : TreeNode) (targetPath : List String) : TreeNode :=
  match targetPath with
  | [] =>
      (match node with
       | .mk k v ty pth e ch => .mk k v ty pth (!e) ch)
  | currentKey :: remainingPath =>
      (match node with
       | .mk k v ty pth e (some cs) =>
           .mk k v ty pth e (some (cs.map (fun child =>
             if child.key.toString = currentKey then toggleTreeNodeExpansion child remainingPath
             else child)))
       | .mk _ _ _ _ _ none => node)

/-- `SearchOptions`: all four fields are optional in the TypeScript
interface; an absent field (`none`) is falsy when tested. -/
structure SearchOptions where
  caseSensitive : Option Bool := none
  regex : Option Bool := none
  searchKeys : Option Bool := none
  searchValues : Option Bool := none

/-- JavaScript truthiness of an optional boolean option field. -/
def optB (o : Option Bool) : Bool := o.getD false

/-- The default `options` argument of `searchTree`. -/
def defaultSearchOptions : SearchOptions :=
  { caseSensitive := some false, regex := some false
    searchKeys := some true, searchValues := some true }

/-- A search result's `matchType`: `'key' | 'value'`. -/
inductive MatchKind where
  | key | value
deriving DecidableEq

/-- `SearchResult`: `{node, matchType, matchText}`. -/
structure SearchResult where
  node : TreeNode
  matchType : MatchKind
  matchText : String

/-- `text.includes(sub)` of JavaScript: substring containment (always
true for the empty needle). -/
def strIncludes (text sub : String) : Bool :=
  if sub = "" then true else (text.splitOn sub).length ≥ 2

mutual
/-- Model of JavaScript `String(value)` on a decoded JSON value:
`null` → `"null"`, booleans and numbers print their literal form,
strings are returned as-is, arrays join their members with `","`
(a `null` member printing as the empty string), plain objects print
`"[object Object]"`. -/
def jsToString : JsonValue → String
  | .null => "null"
  | .bool b => if b then "true" else "false"
  | .num n => ToString.toString n
  | .str s => s
  | .arr elems => String.intercalate "," (jsArrElemStrings elems)
  | .obj _ => "[object Object]"

def jsArrElemStrings : List JsonValue → List String
  | [] => []
  | x :: rest =>
      (match x with
       | .null => ""
       | _ => jsToString x) :: jsArrElemStrings rest
end

/-- One match test of `searchTree`: in regex mode the pattern is
compiled by the host engine (`compile q cs = none` models a `RegExp`
constructor throw) and tested, falling back to a plain substring test
when compilation fails; in non-regex mode it is a substring test. -/
def searchMatches (compile : String → Bool → Option (String → Bool))
    (useRegex : Bool) (searchQuery : String) (cs : Bool) (text : String) : Bool :=
  if useRegex then
    match compile searchQuery cs with
    | some test => test text
    | none => strIncludes text searchQuery
  else strIncludes text searchQuery

mutual
/-- The inner `searchNode` of `searchTree`: tests the stringified key
(when `searchKeys` is truthy), then the stringified value (when
`searchValues` is truthy and the node is not a container), then
recurses into the children, accumulating pre-order results. -/
def searchNode (compile : String → Bool → Option (String → Bool))
    (options : SearchOptions) (searchQuery : String) : TreeNode → List SearchResult
  | .mk k v ty pth e ch =>
      (if optB options.searchKeys then
         (let keyStr := k.toString
          let searchKeyStr := if optB options.caseSensitive then keyStr else keyStr.toLower
          if searchMatches compile (optB options.regex) searchQuery
              (optB options.caseSensitive) searchKeyStr then
            [⟨.mk k v ty pth e ch, .key, keyStr⟩]
          else [])
       else [])
      ++ (if optB options.searchValues && !(ty = JType.object) && !(ty = JType.array) then
            (let valueStr := jsToString v
             let searchValueStr := if optB options.caseSensitive then valueStr else valueStr.toLower
             if searchMatches compile (optB options.regex) searchQuery
                 (optB options.caseSensitive) searchValueStr then
               [⟨.mk k v ty pth e ch, .value, valueStr⟩]
             else [])
          else [])
      ++ (match ch with
          | some cs => searchChildren compile options searchQuery cs
          | none => [])

def searchChildren (compile : String → Bool → Option (String → Bool))
    (options : SearchOptions) (searchQuery : String) : List TreeNode → List SearchResult
  | [] => []
  | c :: rest =>
      searchNode compile options searchQuery c ++ searchChildren compile options searchQuery rest
end

/-- The `!query.trim()` test of `searchTree`: the trimmed query is the
empty string exactly when every character of the query is whitespace. -/
def trimEmpty (s : String) : Bool := s.data.all Char.isWhitespace

/-- `searchTree(node, query, options)`: empty (after trimming) queries
yield no results; otherwise the query is case-folded unless
`caseSensitive` and the tree is walked pre-order. -/
def searchTree (compile : String → Bool → Option (String → Bool))
    (node : TreeNode) (query : String) (options : SearchOptions) : List SearchResult :=
  if trimEmpty query then []
  else
    searchNode compile options
      (if optB options.caseSensitive then query else query.toLower) node

/-- The `matchingPaths` set of `filterTreeBySearch`: the dot-joined
paths of the result nodes (membership in the JavaScript `Set` is
membership in this list). -/
def matchingPaths (searchResults : List SearchResult) : List String :=
  searchResults.map (fun r => getNodePath r.node.path)

mutual
/-- `shouldIncludeNode`: the node's dot-joined path is in the matching
set, or some descendant is included. -/
def shouldIncludeNode (paths : List String) : TreeNode → Bool
  | .mk _ _ _ pth _ ch =>
      if paths.contains (getNodePath pth) then true
      else
        match ch with
        | some cs => anyIncluded paths cs
        | none => false

def anyIncluded (paths : List String) : List TreeNode → Bool
  | [] => false
  | c :: rest => shouldIncludeNode paths c || anyIncluded paths rest
end

mutual
/-- The inner `filterNode` of `filterTreeBySearch`: drops nodes that
should not be included, keeps the rest with `isExpanded` forced to
true and children filtered recursively. -/
def filterNode (paths : List String) : TreeNode → Option TreeNode
  | .mk k v ty pth e ch =>
      if shouldIncludeNode paths (.mk k v ty pth e ch) then
        some (.mk k v ty pth true (filterChildrenOpt paths ch))
      else none

def filterChildrenOpt (paths : List String) : Option (List TreeNode) → Option (List TreeNode)
  | none => none
  | some cs => some (filterChildren paths cs)

def filterChildren (paths : List String) : List TreeNode → List TreeNode
  | [] => []
  | c :: rest =>
      match filterNode paths c with
      | some c' => c' :: filterChildren paths rest
      | none => filterChildren paths rest
end

/-- `filterTreeBySearch(node, searchResults)`. -/
def filterTreeBySearch (node : TreeNode) (searchResults : List SearchResult) : Option TreeNode :=
  filterNode (matchingPaths searchResults) node

/-- JavaScript `obj[k] = v` on an insertion-ordered object: overwrite
in place when the key exists, else append. -/
def objAssign (fields : List (String × JsonValue)) (k : String) (v : JsonValue) :
    List (String × JsonValue) :=
  match fields with
  | [] => [(k, v)]
  | (k', v') :: rest => if k' = k then (k', v) :: rest else (k', v') :: objAssign rest k v

/-- Building an object by successive `obj[k] = v` assignments, in order. -/
def objFromPairs (pairs : List (String × JsonValue)) : List (String × JsonValue) :=
  pairs.foldl (fun acc kv => objAssign acc kv.1 kv.2) []

mutual
/-- `reconstructJsonFromTree(node)`: object nodes with children rebuild
an object by assigning each child's stringified key in order, array
nodes with children rebuild the element list, every other node returns
its `value` verbatim. -/
def reconstructJsonFromTree : TreeNode → JsonValue
  | .mk _ v ty _ _ ch =>
      match ty, ch with
      | .object, some cs => .obj (objFromPairs (reconPairs cs))
      | .array, some cs => .arr (reconElems cs)
      | _, _ => v

def reconPairs : List TreeNode → List (String × JsonValue)
  | [] => []
  | c :: rest => (c.key.toString, reconstructJsonFromTree c) :: reconPairs rest

def reconElems : List TreeNode → List JsonValue
  | [] => []
  | c :: rest => reconstructJsonFromTree c :: reconElems rest
end

/-- Keys pairwise distinct (the shape every decoded JavaScript object
has). -/
def keysNodup : List String → Bool
  | [] => true
  | k :: rest => decide (k ∉ rest) && keysNodup rest

mutual
/-- Well-formedness of a decoded value: every object in it has pairwise
distinct keys.  Any value reachable through the standard decoder
satisfies this. -/
def wfJson : JsonValue → Bool
  | .null => true
  | .bool _ => true
  | .num _ => true
  | .str _ => true
  | .arr elems => wfElems elems
  | .obj fields => keysNodup (fields.map Prod.fst) && wfFields fields

def wfElems : List JsonValue → Bool
  | [] => true
  | x :: rest => wfJson x && wfElems rest

def wfFields : List (String × JsonValue) → Bool
  | [] => true
  | (_, v) :: rest => wfJson v && wfFields rest
end

/-- Container kinds are exactly `object` and `array`. -/
def isContainer : JType → Bool
  | .object => true
  | .array => true
  | _ => false

mutual
/-- The children-iff-container invariant of the data model: on every
node, `children` is present exactly when `type` is a container kind. -/
def childrenConsistent : TreeNode → Bool
  | .mk _ _ ty _ _ ch =>
      (ch.isSome == isContainer ty) &&
      (match ch with
       | none => true
       | some cs => childrenConsistentList cs)

def childrenConsistentList : List TreeNode → Bool
  | [] => true
  | c :: rest => childrenConsistent c && childrenConsistentList rest
end

mutual
/-- The path invariant of the data model: on every node `isExpanded`
holds exactly when the node's path is shorter than 2, and every child's
path is its parent's path with the child's stringified key appended. -/
def pathsConsistent : TreeNode → Bool
  | .mk _ _ _ pth e ch =>
      (e == decide (pth.length < 2)) &&
      (match ch with
       | none => true
       | some cs => childPathsOk pth cs)

def childPathsOk (parentPath : List String) : List TreeNode → Bool
  | [] => true
  | c :: rest =>
      (c.path == parentPath ++ [c.key.toString]) && pathsConsistent c &&
        childPathsOk parentPath rest
end

/-- The nodes a target path addresses: the recursion of
`updateTreeNode`/`toggleTreeNodeExpansion` descends into every child
whose stringified key equals the leading segment; the path addresses
the nodes reached when it is exhausted.  An empty list means the path
does not address any existing node. -/
def nodesAt (tree : TreeNode) : List String → List TreeNode
  | [] => [tree]
  | k :: rest =>
      match tree.children with
      | none => []
      | some cs => ((cs.filter (fun c => c.key.toString = k)).map (fun c => nodesAt c rest)).flatten

/-- Frame relation for `updateTreeNode`: the output differs from the
input only along the root-to-target chain — at the target only `value`
and `type` may change, on strict ancestors only the one matching child
slot changes, and every sibling off the chain is kept equal. -/
def UpdateFrame : List String → TreeNode → TreeNode → Prop
  | [], t, t' =>
      t'.key = t.key ∧ t'.path = t.path ∧ t'.isExpanded = t.isExpanded ∧
        t'.children = t.children
  | k :: rest, t, t' =>
      t'.key = t.key ∧ t'.value = t.value ∧ t'.type = t.type ∧ t'.path = t.path ∧
      t'.isExpanded = t.isExpanded ∧
      ((t.children = none ∧ t'.children = none) ∨
        (∃ cs cs', t.children = some cs ∧ t'.children = some cs' ∧
          List.Forall₂ (fun c c' =>
            (c.key.toString ≠ k → c' = c) ∧ (c.key.toString = k → UpdateFrame rest c c')) cs cs'))

/-- Frame relation for `toggleTreeNodeExpansion`: the output differs
from the input only along the root-to-target chain — at the target only
`isExpanded` flips, on strict ancestors only the matching child slot
changes, and every sibling off the chain is kept equal. -/
def ToggleFrame : List String → TreeNode → TreeNode → Prop
  | [], t, t' =>
      t'.key = t.key ∧ t'.value = t.value ∧ t'.type = t.type ∧ t'.path = t.path ∧
        t'.children = t.children ∧ t'.isExpanded = !t.isExpanded
  | k :: rest, t, t' =>
      t'.key = t.key ∧ t'.value = t.value ∧ t'.type = t.type ∧ t'.path = t.path ∧
      t'.isExpanded = t.isExpanded ∧
      ((t.children = none ∧ t'.children = none) ∨
        (∃ cs cs', t.children = some cs ∧ t'.children = some cs' ∧
          List.Forall₂ (fun c c' =>
            (c.key.toString ≠ k → c' = c) ∧ (c.key.toString = k → ToggleFrame rest c c')) cs cs'))

/-- Reflexive descendant relation between a tree and the nodes inside
it (a node, one of its children, one of their children, and so on). -/
inductive Descend : TreeNode → TreeNode → Prop where
  | refl (t : TreeNode) : Descend t t
  | step {t c m : TreeNode} {cs : List TreeNode} :
      t.children = some cs → c ∈ cs → Descend c m → Descend t m

theorem listMapSelf {α : Type} {l : List α} {f : α → α} (h : ∀ a ∈ l, f a = a) :
    l.map f = l := by
  induction l with
  | nil => rfl
  | cons a rest ih =>
      simp only [List.map_cons]
      rw [h a (by simp), ih (fun a ha => h a (by simp [ha]))]

theorem flattenEqNil {α : Type} {l : List (List α)} (h : l.flatten = []) :
    ∀ x ∈ l, x = [] := by
  induction l with
  | nil => intro x hx; cases hx
  | cons a rest ih =>
      rw [List.flatten_cons] at h
      rcases List.append_eq_nil.mp h with ⟨ha, hrest⟩
      intro x hx
      rcases List.mem_cons.mp hx with rfl | hx'
      · exact ha
      · exact ih hrest x hx'

mutual
theorem treeNodeInduction {P : TreeNode → Prop}
    (h : ∀ k v ty pth e ch, (∀ cs, ch = some cs → ∀ c ∈ cs, P c) → P (TreeNode.mk k v ty pth e ch)) :
    ∀ t, P t
  | .mk k v ty pth e none => h k v ty pth e none (by intro cs hcs; cases hcs)
  | .mk k v ty pth e (some cs) => h k v ty pth e (some cs) (by
      intro cs' hcs' c hc
      cases hcs'
      exact treeNodeListInduction h cs c hc)

theorem treeNodeListInduction {P : TreeNode → Prop}
    (h : ∀ k v ty pth e ch, (∀ cs, ch = some cs → ∀ c ∈ cs, P c) → P (TreeNode.mk k v ty pth e ch)) :
    ∀ l : List TreeNode, ∀ c ∈ l, P c
  | c :: rest => by
      intro c' hc'
      rcases List.mem_cons.mp hc' with rfl | hmem
      · exact treeNodeInduction h c'
      · exact treeNodeListInduction h rest c' hmem
  | [] => by intro c hc; cases hc
end

theorem toggle_key_eq (q : List String) (c : TreeNode) :
    (toggleTreeNodeExpansion c q).key = c.key := by
  cases q with
  | nil => cases c; rfl
  | cons k rest =>
      cases c with
      | mk ck cv cty cp ce cch => cases cch <;> rfl

theorem update_noop_aux :
    ∀ (p : List String) (t : TreeNode) (x : JsonValue),
      nodesAt t p = [] → updateTreeNode t p x = t := by
  intro p
  induction p with
  | nil =>
      intro t x h
      simp [nodesAt] at h
  | cons k rest ih =>
      intro t x h
      cases t with
      | mk tk tv tty tp te tch =>
        cases tch with
        | none => rfl
        | some cs =>
            simp only [nodesAt, TreeNode.children] at h
            simp only [updateTreeNode]
            have h2 : cs.map (fun child =>
                if child.key.toString = k then updateTreeNode child rest x else child) = cs := by
              apply listMapSelf
              intro c hc
              by_cases hk : c.key.toString = k
              · rw [if_pos hk]
                apply ih
                have hcf : c ∈ cs.filter (fun c => c.key.toString = k) := by
                  rw [List.mem_filter]
                  exact ⟨hc, by simp [hk]⟩
                have hmem : nodesAt c rest ∈
                    (cs.filter (fun c => c.key.toString = k)).map (fun c => nodesAt c rest) :=
                  List.mem_map_of_mem _ hcf
                exact flattenEqNil h _ hmem
              · rw [if_neg hk]
            rw [h2]

/-- Claim C3: when the target path does not address any existing node
(at some step no child's stringified key equals the leading segment, or
the reached node has no children), `updateTreeNode` returns a tree
equal to its input. -/
theorem c3_update_noop_on_bad_path (t : TreeNode) (p : List String) (x : JsonValue)
    (h : nodesAt t p = []) : updateTreeNode t p x = t :=
  update_noop_aux p t x h

/-- Witness for C3 at a concrete tree and a dangling path. -/
theorem c3_update_noop_on_bad_path_witness :
    nodesAt (buildTreeNode (.obj [("a", .num 1)]) [] (.str "root")) ["b"] = [] ∧
    updateTreeNode (buildTreeNode (.obj [("a", .num 1)]) [] (.str "root")) ["b"] (.num 5)
      = buildTreeNode (.obj [("a", .num 1)]) [] (.str "root") :=
  ⟨rfl, c3_update_noop_on_bad_path _ _ _ rfl⟩

theorem updateFrame_aux :
    ∀ (p : List String) (t : TreeNode) (x : JsonValue),
      UpdateFrame p t (updateTreeNode t p x) := by
  intro p
  induction p with
  | nil =>
      intro t x
      cases t with
      | mk k v ty pth e ch =>
          simp [updateTreeNode, UpdateFrame, TreeNode.key, TreeNode.path,
            TreeNode.isExpanded, TreeNode.children]
  | cons k rest ih =>
      intro t x
      cases t with
      | mk tk tv tty tp te tch =>
        cases tch with
        | none =>
            exact ⟨rfl, rfl, rfl, rfl, rfl, Or.inl ⟨rfl, rfl⟩⟩
        | some cs =>
            refine ⟨rfl, rfl, rfl, rfl, rfl, Or.inr ⟨cs, _, rfl, rfl, ?_⟩⟩
            show List.Forall₂ _ cs (cs.map _)
            rw [List.forall₂_map_right_iff, List.forall₂_same]
            intro c hc
            constructor
            · intro hne
              rw [if_neg hne]
            · intro heq
              rw [if_pos heq]
              exact ih c x

/-- Claim C4: `updateTreeNode` is local — the result differs from the
input only along the root-to-target chain; every sibling subtree off
that chain is kept equal by value. -/
theorem c4_update_locality (t : TreeNode) (p : List String) (x : JsonValue) :
    UpdateFrame p t (updateTreeNode t p x) :=
  updateFrame_aux p t x

theorem toggle_toggle_aux :
    ∀ (p : List String) (t : TreeNode),
      toggleTreeNodeExpansion (toggleTreeNodeExpansion t p) p = t := by
  intro p
  induction p with
  | nil =>
      intro t
      cases t with
      | mk k v ty pth e ch => simp [toggleTreeNodeExpansion]
  | cons k rest ih =>
      intro t
      cases t with
      | mk tk tv tty tp te tch =>
        cases tch with
        | none => rfl
        | some cs =>
            simp only [toggleTreeNodeExpansion, List.map_map]
            have h2 : cs.map ((fun child =>
                  if child.key.toString = k then toggleTreeNodeExpansion child rest else child) ∘
                (fun child =>
                  if child.key.toString = k then toggleTreeNodeExpansion child rest else child))
                = cs := by
              apply listMapSelf
              intro c hc
              by_cases hk : c.key.toString = k
              · simp only [Function.comp_apply, if_pos hk]
                rw [if_pos (show (toggleTreeNodeExpansion c rest).key.toString = k by
                  rw [toggle_key_eq]; exact hk)]
                exact ih c
              · simp only [Function.comp_apply, if_neg hk]
            rw [h2]

theorem toggleFrame_aux :
    ∀ (p : List String) (t : TreeNode),
      ToggleFrame p t (toggleTreeNodeExpansion t p) := by
  intro p
  induction p with
  | nil =>
      intro t
      cases t with
      | mk k v ty pth e ch =>
          simp [toggleTreeNodeExpansion, ToggleFrame, TreeNode.key, TreeNode.value,
            TreeNode.type, TreeNode.path, TreeNode.isExpanded, TreeNode.children]
  | cons k rest ih =>
      intro t
      cases t with
      | mk tk tv tty tp te tch =>
        cases tch with
        | none =>
            exact ⟨rfl, rfl, rfl, rfl, rfl, Or.inl ⟨rfl, rfl⟩⟩
        | some cs =>
            refine ⟨rfl, rfl, rfl, rfl, rfl, Or.inr ⟨cs, _, rfl, rfl, ?_⟩⟩
            show List.Forall₂ _ cs (cs.map _)
            rw [List.forall₂_map_right_iff, List.forall₂_same]
            intro c hc
            constructor
            · intro hne
              rw [if_neg hne]
            · intro heq
              rw [if_pos heq]
              exact ih c

/-- Claim C7: toggling the same path twice restores the tree, and one
application changes nothing except `isExpanded` on the addressed node
plus the node copies along the root-to-target chain. -/
theorem c7_toggle_self_inverse (t : TreeNode) (p : List String) :
    toggleTreeNodeExpansion (toggleTreeNodeExpansion t p) p = t ∧
    ToggleFrame p t (toggleTreeNodeExpansion t p) :=
  ⟨toggle_toggle_aux p t, toggleFrame_aux p t⟩

theorem searchChildren_nil (compile : String → Bool → Option (String → Bool))
    (options : SearchOptions) (sq : String) :
    ∀ cs : List TreeNode, (∀ c ∈ cs, searchNode compile options sq c = []) →
      searchChildren compile options sq cs = [] := by
  intro cs
  induction cs with
  | nil => intro _; rfl
  | cons c rest ih =>
      intro h
      simp [searchChildren, h c (by simp), ih (fun c' hc' => h c' (by simp [hc']))]

theorem searchNode_nil_of_no_targets (compile : String → Bool → Option (String → Bool))
    (options : SearchOptions) (sq : String)
    (hk : options.searchKeys = none) (hv : options.searchValues = none) (t : TreeNode) :
    searchNode compile options sq t = [] := by
  induction t using treeNodeInduction with
  | h k v ty pth e ch ih =>
      cases ch with
      | none => simp [searchNode, hk, hv, optB]
      | some cs =>
          have hall : ∀ c ∈ cs, searchNode compile options sq c = [] :=
            fun c hc => ih cs rfl c hc
          simp [searchNode, hk, hv, optB, searchChildren_nil compile options sq cs hall]

/-- Claim C9: the documented defaults for `searchKeys`/`searchValues`
apply only when the whole options argument is omitted; with a partial
options object that omits both fields (e.g. only `regex` set), both are
treated as false and the search returns the empty result sequence. -/
theorem c9_partial_options_empty (compile : String → Bool → Option (String → Bool))
    (t : TreeNode) (q : String) (cb rg : Option Bool) (_hq : q ≠ "") :
    searchTree compile t q ⟨cb, rg, none, none⟩ = [] := by
  unfold searchTree
  split
  · rfl
  · exact searchNode_nil_of_no_targets compile _ _ rfl rfl t

/-- Witness for C9 at a concrete tree and the options object
`{regex: true}`. -/
theorem c9_partial_options_empty_witness :
    ("a" : String) ≠ "" ∧
    searchTree (fun _ _ => none) (buildTreeNode (.obj [("a", .num 1)]) [] (.str "root"))
      "a" ⟨none, some true, none, none⟩ = [] :=
  ⟨by decide, c9_partial_options_empty _ _ _ _ _ (by decide)⟩

theorem buildTreeNode_path (data : JsonValue) (path : List String) (key : NodeKey) :
    (buildTreeNode data path key).path = path := by cases data <;> rfl

theorem buildTreeNode_key (data : JsonValue) (path : List String) (key : NodeKey) :
    (buildTreeNode data path key).key = key := by cases data <;> rfl

mutual
theorem pathsConsistent_build : ∀ (v : JsonValue) (p : List String) (k : NodeKey),
    pathsConsistent (buildTreeNode v p k) = true
  | .null, p, k => by simp [buildTreeNode, pathsConsistent]
  | .bool b, p, k => by simp [buildTreeNode, pathsConsistent]
  | .num n, p, k => by simp [buildTreeNode, pathsConsistent]
  | .str s, p, k => by simp [buildTreeNode, pathsConsistent]
  | .arr elems, p, k => by
      simp only [buildTreeNode, pathsConsistent]
      simp [childPathsOk_buildArr elems p 0]
  | .obj fields, p, k => by
      simp only [buildTreeNode, pathsConsistent]
      simp [childPathsOk_buildObj fields p]

theorem childPathsOk_buildObj : ∀ (fields : List (String × JsonValue)) (p : List String),
    childPathsOk p (buildObjChildren fields p) = true
  | [], _ => rfl
  | (k, v) :: rest, p => by
      simp only [buildObjChildren, childPathsOk]
      simp [buildTreeNode_path, buildTreeNode_key, NodeKey.toString,
        pathsConsistent_build v (p ++ [k]) (.str k),
        childPathsOk_buildObj rest p]

theorem childPathsOk_buildArr : ∀ (elems : List JsonValue) (p : List String) (i : Nat),
    childPathsOk p (buildArrChildren elems p i) = true
  | [], _, _ => rfl
  | x :: rest, p, i => by
      simp only [buildArrChildren, childPathsOk]
      simp [buildTreeNode_path, buildTreeNode_key, NodeKey.toString,
        pathsConsistent_build x (p ++ [ToString.toString i]) (.num i),
        childPathsOk_buildArr rest p (i + 1)]
end

/-- Claim C8: in a built tree the root's path is the argument path (the
empty sequence at the default call), every child's path is its parent's
path with the child's stringified key appended, and `isExpanded` holds
exactly on nodes whose path is shorter than 2. -/
theorem c8_path_invariant (v : JsonValue) :
    (buildTreeNode v [] (.str "root")).path = [] ∧
    ∀ (p : List String) (k : NodeKey), pathsConsistent (buildTreeNode v p k) = true :=
  ⟨by cases v <;> rfl, fun p k => pathsConsistent_build v p k⟩

theorem objAssign_append {fields : List (String × JsonValue)} {k : String} {v : JsonValue}
    (h : k ∉ fields.map Prod.fst) : objAssign fields k v = fields ++ [(k, v)] := by
  induction fields with
  | nil => rfl
  | cons kv rest ih =>
      cases kv with
      | mk k' v' =>
        simp only [List.map_cons, List.mem_cons, not_or] at h
        simp only [objAssign]
        rw [if_neg (fun he : k' = k => h.1 he.symm), ih h.2]
        simp

theorem objFromPairs_go {pairs : List (String × JsonValue)} :
    ∀ acc : List (String × JsonValue),
      keysNodup (pairs.map Prod.fst) = true →
      (∀ kv ∈ pairs, kv.1 ∉ acc.map Prod.fst) →
      pairs.foldl (fun acc kv => objAssign acc kv.1 kv.2) acc = acc ++ pairs := by
  induction pairs with
  | nil => intro acc _ _; simp
  | cons kv rest ih =>
      intro acc hnd hdisj
      cases kv with
      | mk k v =>
        simp only [List.foldl_cons]
        rw [objAssign_append (hdisj (k, v) (by simp))]
        simp only [List.map_cons, keysNodup, Bool.and_eq_true, decide_eq_true_eq] at hnd
        rw [ih (acc ++ [(k, v)]) hnd.2 ?_]
        · simp
        · intro kv' hkv' hmem
          simp only [List.map_append, List.mem_append] at hmem
          rcases hmem with h1 | h2
          · exact hdisj kv' (by simp [hkv']) h1
          · have he : kv'.1 = k := by simpa using h2
            exact hnd.1 (he ▸ List.mem_map_of_mem Prod.fst hkv')

theorem objFromPairs_eq_self {pairs : List (String × JsonValue)}
    (h : keysNodup (pairs.map Prod.fst) = true) : objFromPairs pairs = pairs := by
  have := objFromPairs_go [] h (by simp)
  simpa [objFromPairs] using this

mutual
theorem recon_build : ∀ (v : JsonValue) (p : List String) (k : NodeKey),
    wfJson v = true → reconstructJsonFromTree (buildTreeNode v p k) = v
  | .null, _, _, _ => rfl
  | .bool _, _, _, _ => rfl
  | .num _, _, _, _ => rfl
  | .str _, _, _, _ => rfl
  | .arr elems, p, k, h => by
      simp only [buildTreeNode, getValueType, reconstructJsonFromTree]
      rw [reconElems_buildArr elems p 0 (by simpa [wfJson] using h)]
  | .obj fields, p, k, h => by
      simp only [buildTreeNode, getValueType, reconstructJsonFromTree]
      simp only [wfJson, Bool.and_eq_true] at h
      rw [reconPairs_buildObj fields p h.2, objFromPairs_eq_self h.1]

theorem reconElems_buildArr : ∀ (elems : List JsonValue) (p : List String) (i : Nat),
    wfElems elems = true → reconElems (buildArrChildren elems p i) = elems
  | [], _, _, _ => rfl
  | x :: rest, p, i, h => by
      simp only [wfElems, Bool.and_eq_true] at h
      simp only [buildArrChildren, reconElems]
      rw [recon_build x _ _ h.1, reconElems_buildArr rest p (i + 1) h.2]

theorem reconPairs_buildObj : ∀ (fields : List (String × JsonValue)) (p : List String),
    wfFields fields = true → reconPairs (buildObjChildren fields p) = fields
  | [], _, _ => rfl
  | (k, v) :: rest, p, h => by
      simp only [wfFields, Bool.and_eq_true] at h
      simp only [buildObjChildren, reconPairs]
      rw [recon_build v _ _ h.1, reconPairs_buildObj rest p h.2]
      simp [buildTreeNode_key, NodeKey.toString]
end

/-- Claim C1: for every well-formed decoded value (object keys pairwise
distinct, as the standard decoder guarantees), reconstructing the built
tree yields the value back, key order and element order preserved. -/
theorem c1_roundtrip (v : JsonValue) (p : List String) (k : NodeKey)
    (h : wfJson v = true) : reconstructJsonFromTree (buildTreeNode v p k) = v :=
  recon_build v p k h

/-- Witness for C1 at the spec's scenario value
`{"a":1,"b":[true,null,"x"]}`. -/
theorem c1_roundtrip_witness :
    wfJson (.obj [("a", .num 1), ("b", .arr [.bool true, .null, .str "x"])]) = true ∧
    reconstructJsonFromTree (buildTreeNode
        (.obj [("a", .num 1), ("b", .arr [.bool true, .null, .str "x"])]) [] (.str "root"))
      = .obj [("a", .num 1), ("b", .arr [.bool true, .null, .str "x"])] :=
  ⟨rfl, c1_roundtrip _ _ _ rfl⟩

mutual
theorem childrenConsistent_build : ∀ (v : JsonValue) (p : List String) (k : NodeKey),
    childrenConsistent (buildTreeNode v p k) = true
  | .null, _, _ => rfl
  | .bool _, _, _ => rfl
  | .num _, _, _ => rfl
  | .str _, _, _ => rfl
  | .arr elems, p, k => by
      simp only [buildTreeNode, childrenConsistent, getValueType]
      simp [isContainer, childrenConsistentList_buildArr elems p 0]
  | .obj fields, p, k => by
      simp only [buildTreeNode, childrenConsistent, getValueType]
      simp [isContainer, childrenConsistentList_buildObj fields p]

theorem childrenConsistentList_buildObj :
    ∀ (fields : List (String × JsonValue)) (p : List String),
      childrenConsistentList (buildObjChildren fields p) = true
  | [], _ => rfl
  | (k, v) :: rest, p => by
      simp [buildObjChildren, childrenConsistentList,
        childrenConsistent_build v (p ++ [k]) (.str k),
        childrenConsistentList_buildObj rest p]

theorem childrenConsistentList_buildArr :
    ∀ (elems : List JsonValue) (p : List String) (i : Nat),
      childrenConsistentList (buildArrChildren elems p i) = true
  | [], _, _ => rfl
  | x :: rest, p, i => by
      simp [buildArrChildren, childrenConsistentList,
        childrenConsistent_build x (p ++ [ToString.toString i]) (.num i),
        childrenConsistentList_buildArr rest p (i + 1)]
end

theorem childrenConsistentList_eq_all (l : List TreeNode) :
    childrenConsistentList l = true ↔ ∀ c ∈ l, childrenConsistent c = true := by
  induction l with
  | nil => simp [childrenConsistentList]
  | cons c rest ih => simp [childrenConsistentList, Bool.and_eq_true, ih]

theorem childrenConsistent_toggle : ∀ (q : List String) (t : TreeNode),
    childrenConsistent (toggleTreeNodeExpansion t q) = childrenConsistent t := by
  intro q
  induction q with
  | nil =>
      intro t
      cases t with
      | mk k v ty pth e ch => rfl
  | cons k rest ih =>
      intro t
      cases t with
      | mk tk tv tty tp te tch =>
        cases tch with
        | none => rfl
        | some cs =>
            simp only [toggleTreeNodeExpansion, childrenConsistent]
            have h2 : childrenConsistentList (cs.map (fun child =>
                if child.key.toString = k then toggleTreeNodeExpansion child rest else child))
                = childrenConsistentList cs := by
              induction cs with
              | nil => rfl
              | cons c cr ihl =>
                  simp only [List.map_cons, childrenConsistentList, ihl]
                  by_cases hk : c.key.toString = k
                  · rw [if_pos hk, ih c]
                  · rw [if_neg hk]
            simp [h2]

mutual
theorem childrenConsistent_expandAll :
    ∀ t, childrenConsistent (expandAllTreeNodes t) = childrenConsistent t
  | .mk k v ty pth e none => rfl
  | .mk k v ty pth e (some cs) => by
      simp only [expandAllTreeNodes, expandAllOpt, childrenConsistent, Option.isSome]
      rw [childrenConsistentList_expandAll cs]

theorem childrenConsistentList_expandAll :
    ∀ l, childrenConsistentList (expandAllList l) = childrenConsistentList l
  | [] => rfl
  | c :: rest => by
      simp only [expandAllList, childrenConsistentList]
      rw [childrenConsistent_expandAll c, childrenConsistentList_expandAll rest]
end

mutual
theorem childrenConsistent_collapseAll :
    ∀ t, childrenConsistent (collapseAllTreeNodes t) = childrenConsistent t
  | .mk k v ty pth e none => rfl
  | .mk k v ty pth e (some cs) => by
      simp only [collapseAllTreeNodes, collapseAllOpt, childrenConsistent, Option.isSome]
      rw [childrenConsistentList_collapseAll cs]

theorem childrenConsistentList_collapseAll :
    ∀ l, childrenConsistentList (collapseAllList l) = childrenConsistentList l
  | [] => rfl
  | c :: rest => by
      simp only [collapseAllList, childrenConsistentList]
      rw [childrenConsistent_collapseAll c, childrenConsistentList_collapseAll rest]
end

theorem mem_nodesAt_child {cs : List TreeNode} {c n : TreeNode} {k : String}
    {rest : List String} {tk : NodeKey} {tv : JsonValue} {tty : JType} {tp : List String}
    {te : Bool} (hc : c ∈ cs) (hk : c.key.toString = k) (hn : n ∈ nodesAt c rest) :
    n ∈ nodesAt (.mk tk tv tty tp te (some cs)) (k :: rest) := by
  simp only [nodesAt, TreeNode.children]
  rw [List.mem_flatten]
  exact ⟨nodesAt c rest, List.mem_map_of_mem _ (List.mem_filter.mpr ⟨hc, by simp [hk]⟩), hn⟩

theorem childrenConsistent_update : ∀ (q : List String) (t : TreeNode) (x : JsonValue),
    childrenConsistent t = true →
    (∀ n ∈ nodesAt t q, isContainer (getValueType x) = n.children.isSome) →
    childrenConsistent (updateTreeNode t q x) = true := by
  intro q
  induction q with
  | nil =>
      intro t x ht hx
      cases t with
      | mk k v ty pth e ch =>
        have hx' := hx (.mk k v ty pth e ch) (by simp [nodesAt])
        simp only [TreeNode.children] at hx'
        cases ch with
        | none =>
            simp only [Option.isSome_none] at hx'
            show ((false == isContainer (getValueType x)) && true) = true
            rw [hx']
            rfl
        | some cs =>
            simp only [Option.isSome_some] at hx'
            have ht' : ((true == isContainer ty) && childrenConsistentList cs) = true := ht
            rw [Bool.and_eq_true] at ht'
            show ((true == isContainer (getValueType x)) && childrenConsistentList cs) = true
            rw [Bool.and_eq_true]
            refine ⟨?_, ht'.2⟩
            rw [hx']
            rfl
  | cons k rest ih =>
      intro t x ht hx
      cases t with
      | mk tk tv tty tp te tch =>
        cases tch with
        | none => exact ht
        | some cs =>
            have ht' : ((true == isContainer tty) && childrenConsistentList cs) = true := ht
            rw [Bool.and_eq_true] at ht'
            obtain ⟨h1, h2⟩ := ht'
            have h3 : childrenConsistentList (cs.map (fun child =>
                if child.key.toString = k then updateTreeNode child rest x else child))
                = true := by
              rw [childrenConsistentList_eq_all]
              intro c' hc'
              rcases List.mem_map.mp hc' with ⟨c, hc, rfl⟩
              by_cases hk : c.key.toString = k
              · rw [if_pos hk]
                exact ih c x ((childrenConsistentList_eq_all cs).mp h2 c hc)
                  (fun n hn => hx n (mem_nodesAt_child hc hk hn))
              · rw [if_neg hk]
                exact (childrenConsistentList_eq_all cs).mp h2 c hc
            show ((true == isContainer tty) && childrenConsistentList (cs.map (fun child =>
              if child.key.toString = k then updateTreeNode child rest x else child))) = true
            rw [Bool.and_eq_true]
            exact ⟨h1, h3⟩

/-- Counterexample to C2 as stated: replacing the value of a container
node with a primitive through an empty remaining path keeps the
children but retags the node, so a tree reachable through one
`updateTreeNode` call violates the children-iff-container invariant. -/
theorem c2_children_iff_container_counterexample :
    childrenConsistent (updateTreeNode
        (buildTreeNode (.obj [("a", .null)]) [] (.str "root")) [] (.str "x")) = false :=
  rfl

/-- Claim C2 (amended): the children-iff-container invariant holds for
every built tree and is preserved by toggle, expand-all and
collapse-all; `updateTreeNode` preserves it exactly when the new
value's container-ness agrees with the presence of children on every
node the path addresses (in particular for the primitive-leaf edits the
UI performs); a container-ness-changing update at an addressed node
breaks it. -/
theorem c2_children_iff_container_amended (v : JsonValue) (p : List String) (k : NodeKey)
    (t : TreeNode) (q : List String) (x : JsonValue)
    (ht : childrenConsistent t = true)
    (hx : ∀ n ∈ nodesAt t q, isContainer (getValueType x) = n.children.isSome) :
    childrenConsistent (buildTreeNode v p k) = true ∧
    childrenConsistent (toggleTreeNodeExpansion t q) = true ∧
    childrenConsistent (expandAllTreeNodes t) = true ∧
    childrenConsistent (collapseAllTreeNodes t) = true ∧
    childrenConsistent (updateTreeNode t q x) = true :=
  ⟨childrenConsistent_build v p k,
   by rw [childrenConsistent_toggle]; exact ht,
   by rw [childrenConsistent_expandAll]; exact ht,
   by rw [childrenConsistent_collapseAll]; exact ht,
   childrenConsistent_update q t x ht hx⟩

/-- Witness for the amended C2 at a concrete tree, path and primitive
replacement value. -/
theorem c2_children_iff_container_amended_witness :
    childrenConsistent (buildTreeNode (.obj [("a", .null)]) [] (.str "root")) = true ∧
    (∀ n ∈ nodesAt (buildTreeNode (.obj [("a", .null)]) [] (.str "root")) ["a"],
      isContainer (getValueType (.num 7)) = n.children.isSome) ∧
    (childrenConsistent (buildTreeNode (.arr [.bool true]) [] (.str "root")) = true ∧
     childrenConsistent (toggleTreeNodeExpansion
        (buildTreeNode (.obj [("a", .null)]) [] (.str "root")) ["a"]) = true ∧
     childrenConsistent (expandAllTreeNodes
        (buildTreeNode (.obj [("a", .null)]) [] (.str "root"))) = true ∧
     childrenConsistent (collapseAllTreeNodes
        (buildTreeNode (.obj [("a", .null)]) [] (.str "root"))) = true ∧
     childrenConsistent (updateTreeNode
        (buildTreeNode (.obj [("a", .null)]) [] (.str "root")) ["a"] (.num 7)) = true) :=
  ⟨rfl, by decide,
   c2_children_iff_container_amended (.arr [.bool true]) [] (.str "root") _ ["a"] (.num 7)
     rfl (by decide)⟩

theorem searchMatches_compile_none {compile : String → Bool → Option (String → Bool)}
    {sq : String} {cs0 : Bool} (hc : compile sq cs0 = none) (u : Bool) (text : String) :
    searchMatches compile u sq cs0 text = strIncludes text sq := by
  cases u <;> simp [searchMatches, hc]

theorem searchChildren_congrList (compile : String → Bool → Option (String → Bool))
    (o1 o2 : SearchOptions) (sq : String) :
    ∀ cs : List TreeNode,
      (∀ c ∈ cs, searchNode compile o1 sq c = searchNode compile o2 sq c) →
      searchChildren compile o1 sq cs = searchChildren compile o2 sq cs := by
  intro cs
  induction cs with
  | nil => intro _; rfl
  | cons c rest ih =>
      intro h
      simp only [searchChildren]
      rw [h c (by simp), ih (fun c' hc' => h c' (by simp [hc']))]

theorem searchNode_regex_fallback (compile : String → Bool → Option (String → Bool))
    (opts : SearchOptions) (sq : String)
    (hc : compile sq (optB opts.caseSensitive) = none) (t : TreeNode) :
    searchNode compile opts sq t =
      searchNode compile { opts with regex := some false } sq t := by
  induction t using treeNodeInduction with
  | h k v ty pth e ch ih =>
      cases ch with
      | none =>
          simp [searchNode, searchMatches_compile_none hc]
      | some cs =>
          have hcs := searchChildren_congrList compile opts { opts with regex := some false }
            sq cs (fun c hc' => ih cs rfl c hc')
          simp [searchNode, searchMatches_compile_none hc, hcs]

/-- Claim C5: search is total — a query that trims to the empty string
returns the empty result sequence for any tree and options, and in
regex mode a query the host regex engine rejects (the compile function
returns `none`, modelling a `RegExp` constructor throw that the code
catches) never propagates an error: the search degrades to the literal
(possibly case-folded) substring test against keys and stringified
values. -/
theorem c5_search_totality (compile : String → Bool → Option (String → Bool))
    (t : TreeNode) (q : String) (opts : SearchOptions) :
    (trimEmpty q = true → searchTree compile t q opts = []) ∧
    (optB opts.regex = true →
      compile (if optB opts.caseSensitive then q else q.toLower) (optB opts.caseSensitive)
        = none →
      searchTree compile t q opts =
        searchTree compile t q { opts with regex := some false }) := by
  constructor
  · intro hq
    simp [searchTree, hq]
  · intro _ hcompile
    by_cases hq : trimEmpty q = true
    · simp [searchTree, hq]
    · have hq' : trimEmpty q = false := by
        cases h : trimEmpty q
        · rfl
        · exact absurd h hq
      simp only [searchTree, hq', Bool.false_eq_true, if_false]
      exact searchNode_regex_fallback compile opts _ hcompile t

/-- Witness for C5: an all-whitespace query on one side, and the
invalid regex pattern `"["` with a rejecting compile function on the
other. -/
theorem c5_search_totality_witness :
    (trimEmpty " " = true ∧
      searchTree (fun _ _ => none)
        (buildTreeNode (.obj [("a", .str "x[")]) [] (.str "root")) " "
        ⟨some false, some true, some true, some true⟩ = []) ∧
    (optB (some true) = true ∧
      searchTree (fun _ _ => none)
        (buildTreeNode (.obj [("a", .str "x[")]) [] (.str "root")) "["
        ⟨some false, some true, some true, some true⟩ =
      searchTree (fun _ _ => none)
        (buildTreeNode (.obj [("a", .str "x[")]) [] (.str "root")) "["
        { (⟨some false, some true, some true, some true⟩ : SearchOptions) with
            regex := some false }) :=
  ⟨⟨by decide,
    (c5_search_totality (fun _ _ => none)
      (buildTreeNode (.obj [("a", .str "x[")]) [] (.str "root")) " "
      ⟨some false, some true, some true, some true⟩).1 (by decide)⟩,
   ⟨rfl,
    (c5_search_totality (fun _ _ => none)
      (buildTreeNode (.obj [("a", .str "x[")]) [] (.str "root")) "["
      ⟨some false, some true, some true, some true⟩).2 rfl rfl⟩⟩

/-- Claim C10: `filterTreeBySearch` decides matches by comparing
dot-joined path strings, so distinct paths whose joins coincide are
conflated: in the tree of `{"a.b": 1, "a": {"b": 2}}`, a single search
result for the node at path `["a","b"]` also retains the node at path
`["a.b"]` (which appears in no search result), because both paths join
to the string `"a.b"`. -/
theorem c10_filter_path_collision :
    ([⟨TreeNode.mk (.str "b") (.num 2) .number ["a", "b"] false none, .value, "2"⟩]
        : List SearchResult).map (fun r => r.node.path) = [["a", "b"]] ∧
    (["a", "b"] : List String) ≠ ["a.b"] ∧
    getNodePath ["a", "b"] = getNodePath ["a.b"] ∧
    filterTreeBySearch
        (buildTreeNode (.obj [("a.b", .num 1), ("a", .obj [("b", .num 2)])]) [] (.str "root"))
        [⟨TreeNode.mk (.str "b") (.num 2) .number ["a", "b"] false none, .value, "2"⟩]
      = some (TreeNode.mk (.str "root")
          (.obj [("a.b", .num 1), ("a", .obj [("b", .num 2)])]) .object [] true
          (some [TreeNode.mk (.str "a.b") (.num 1) .number ["a.b"] true none,
                 TreeNode.mk (.str "a") (.obj [("b", .num 2)]) .object ["a"] true
                   (some [TreeNode.mk (.str "b") (.num 2) .number ["a", "b"] true none])])) :=
  ⟨rfl, by decide, rfl, rfl⟩

theorem descend_trans {a b c : TreeNode} (hab : Descend a b) (hbc : Descend b c) :
    Descend a c := by
  induction hab with
  | refl _ => exact hbc
  | step hch hmem _ ih => exact Descend.step hch hmem (ih hbc)

theorem anyIncluded_of_mem {paths : List String} {cs : List TreeNode} {c : TreeNode}
    (hc : c ∈ cs) (h : shouldIncludeNode paths c = true) : anyIncluded paths cs = true := by
  induction cs with
  | nil => cases hc
  | cons c0 rest ih =>
      rcases List.mem_cons.mp hc with rfl | hmem
      · simp [anyIncluded, h]
      · simp [anyIncluded, ih hmem]

theorem shouldInclude_of_children {paths : List String} {t : TreeNode} {cs : List TreeNode}
    (hch : t.children = some cs) (h : anyIncluded paths cs = true) :
    shouldIncludeNode paths t = true := by
  cases t with
  | mk k v ty pth e ch =>
      simp only [TreeNode.children] at hch
      subst hch
      simp [shouldIncludeNode, h]

theorem shouldInclude_of_descend {paths : List String} {t m : TreeNode}
    (hd : Descend t m) (hm : getNodePath m.path ∈ paths) :
    shouldIncludeNode paths t = true := by
  revert hm
  induction hd with
  | refl t0 =>
      intro hm
      cases t0 with
      | mk k v ty pth e ch =>
          simp only [TreeNode.path] at hm
          cases ch <;> simp [shouldIncludeNode, hm]
  | step hch hmem hsub ih =>
      intro hm
      exact shouldInclude_of_children hch (anyIncluded_of_mem hmem (ih hm))

theorem filterNode_some {paths : List String} {t : TreeNode}
    (h : shouldIncludeNode paths t = true) :
    filterNode paths t = some (.mk t.key t.value t.type t.path true
      (filterChildrenOpt paths t.children)) := by
  cases t with
  | mk k v ty pth e ch =>
      simp [filterNode, h, TreeNode.key, TreeNode.value, TreeNode.type,
        TreeNode.path, TreeNode.children]

theorem mem_filterChildren {paths : List String} {cs : List TreeNode} {c c' : TreeNode}
    (hc : c ∈ cs) (hf : filterNode paths c = some c') : c' ∈ filterChildren paths cs := by
  induction cs with
  | nil => cases hc
  | cons c0 rest ih =>
      rcases List.mem_cons.mp hc with rfl | hmem
      · simp [filterChildren, hf]
      · cases h0 : filterNode paths c0 with
        | some d => simp [filterChildren, h0, ih hmem]
        | none => simp [filterChildren, h0, ih hmem]

theorem filter_descend_aux {paths : List String} {m a : TreeNode}
    (hm : getNodePath m.path ∈ paths) :
    ∀ {t : TreeNode}, Descend t a → Descend a m →
      ∃ t' a', filterNode paths t = some t' ∧ filterNode paths a = some a' ∧
        Descend t' a' := by
  intro t hta
  induction hta with
  | refl t0 =>
      intro ham
      have h := shouldInclude_of_descend ham hm
      exact ⟨_, _, filterNode_some h, filterNode_some h, Descend.refl _⟩
  | step hch hmem hsub ih =>
      intro ham
      obtain ⟨c', a', hfc, hfa, hdes⟩ := ih ham
      have hst := shouldInclude_of_descend (descend_trans (Descend.step hch hmem hsub) ham) hm
      refine ⟨_, a', filterNode_some hst, hfa, ?_⟩
      refine Descend.step ?_ (mem_filterChildren hmem hfc) hdes
      show filterChildrenOpt paths _ = some (filterChildren paths _)
      rw [hch]
      rfl

/-- Claim C6: when the search results contain the (dot-joined) path of
a leaf node m occurring in the tree, the filtered tree is non-absent,
and every ancestor of m — every node on the root-to-m chain — survives
filtering with `isExpanded` forced to true, with `children` replaced by
exactly the filtered subset of its original children, and with its
image present in the filtered tree. -/
theorem c6_filter_retains_ancestors (t m : TreeNode) (rs : List SearchResult)
    (hdm : Descend t m) (_hleaf : m.children = none)
    (hm : getNodePath m.path ∈ matchingPaths rs) :
    ∃ t', filterTreeBySearch t rs = some t' ∧
      ∀ a, Descend t a → Descend a m →
        ∃ a', filterNode (matchingPaths rs) a = some a' ∧
          Descend t' a' ∧ a'.isExpanded = true ∧
          a'.children = filterChildrenOpt (matchingPaths rs) a.children := by
  have hroot := shouldInclude_of_descend hdm hm
  refine ⟨_, filterNode_some hroot, ?_⟩
  intro a hta ham
  have hsa := shouldInclude_of_descend ham hm
  obtain ⟨t', a', hft, hfa, hdes⟩ := filter_descend_aux hm hta ham
  rw [filterNode_some hroot] at hft
  rw [filterNode_some hsa] at hfa
  cases hft
  cases hfa
  exact ⟨_, filterNode_some hsa, hdes, rfl, rfl⟩

/-- Witness for C6: the tree of `{"a": {"b": 2}}` with a search result
for its leaf at path `["a","b"]`. -/
theorem c6_filter_retains_ancestors_witness :
    ∃ t', filterTreeBySearch
        (buildTreeNode (.obj [("a", .obj [("b", .num 2)])]) [] (.str "root"))
        [⟨TreeNode.mk (.str "b") (.num 2) .number ["a", "b"] false none, .value, "2"⟩]
      = some t' ∧
      ∀ a, Descend (buildTreeNode (.obj [("a", .obj [("b", .num 2)])]) [] (.str "root")) a →
        Descend a (TreeNode.mk (.str "b") (.num 2) .number ["a", "b"] false none) →
        ∃ a', filterNode (matchingPaths
            [⟨TreeNode.mk (.str "b") (.num 2) .number ["a", "b"] false none, .value, "2"⟩]) a
          = some a' ∧
          Descend t' a' ∧ a'.isExpanded = true ∧
          a'.children = filterChildrenOpt (matchingPaths
            [⟨TreeNode.mk (.str "b") (.num 2) .number ["a", "b"] false none, .value, "2"⟩])
            a.children :=
  c6_filter_retains_ancestors _ _ _
    (Descend.step rfl (List.mem_singleton.mpr rfl)
      (Descend.step rfl (List.mem_singleton.mpr rfl) (Descend.refl _)))
    rfl
    (by decide)
